import Mathlib

/-!
Shallow embedding of `src/doc_gen_script.py` (a documentation-generation
pipeline: BFS file discovery, fixed-size text chunking, two-phase
summarization through a streaming backend, and a summary map built by the
driver), together with theorems settling the specification claims.

Python strings are modelled as `List Char` where character-level slicing
matters (`chunk_text`, `strip`) and as Lean `String` elsewhere.  Filesystem
and network effects are modelled by explicit data: a directory tree type for
`os.scandir`, an `Option String` for a file read that may raise, a `Response`
value for one streamed HTTP exchange, and a list of issued prompts as the
observable trace of backend calls.
-/

namespace DocGen

/-- Global constant `CHUNK_CHAR_SIZE = 8000` from the script. -/
def CHUNK_CHAR_SIZE : Nat := 8000

/-- Embedding of `chunk_text(text, size)`:
`if not text: return []` then `[text[i:i+size] for i in range(0, len(text), size)]`.
`range(0, n, size)` for positive `size` has `(n + size - 1) / size` elements
(the ceiling of `n / size`), and the Python slice `text[i:i+size]` is
`(text.drop i).take size`.  Text is modelled as `List Char` (Python `str` is a
character sequence). -/
def chunk_text (text : List Char) (size : Nat) : List (List Char) :=
  if text = [] then []
  else (List.range' 0 ((text.length + size - 1) / size) size).map
    (fun i => (text.drop i).take size)

lemma map_slice_range' (text : List Char) (size : Nat) :
    ∀ (c s : Nat),
      (List.range' s c size).map (fun i => (text.drop i).take size)
        = (List.range' 0 c size).map
            (fun i => (((text.drop s).drop i).take size)) := by
  intro c
  induction c generalizing text with
  | zero => intro s; simp
  | succ c ih =>
    intro s
    rw [List.range'_succ, List.range'_succ]
    simp only [List.map_cons, List.drop_zero, Nat.zero_add]
    congr 1
    rw [ih text (s + size), ih (text.drop s) size]
    have hfg : (fun i => List.take size (List.drop i (List.drop (s + size) text)))
        = fun i => List.take size (List.drop i (List.drop size (List.drop s text))) := by
      funext i
      simp only [List.drop_drop]
    rw [hfg]

lemma chunk_text_cons_step (text : List Char) (size : Nat)
    (hs : 0 < size) (ht : text ≠ []) :
    chunk_text text size = text.take size :: chunk_text (text.drop size) size := by
  have hn : 0 < text.length := List.length_pos.mpr ht
  have hcount : (text.length + size - 1) / size = (text.length - 1) / size + 1 := by
    have h1 : text.length + size - 1 = (text.length - 1) + size := by omega
    rw [h1, Nat.add_div_right _ hs]
  rw [chunk_text, if_neg ht, hcount, List.range'_succ]
  simp only [List.map_cons, List.drop_zero, Nat.zero_add]
  congr 1
  rw [map_slice_range' text size _ size]
  by_cases hd : text.drop size = []
  · have hle : text.length ≤ size := by
      have := List.length_drop size text
      rw [hd] at this
      simp at this
      omega
    have hz : (text.length - 1) / size = 0 := Nat.div_eq_of_lt (by omega)
    rw [chunk_text, if_pos hd, hz]
    simp [hd]
  · have hlen : (text.drop size).length = text.length - size := List.length_drop size text
    have hgt : size < text.length := by
      by_contra hc
      exact hd (List.drop_eq_nil_of_le (by omega))
    rw [chunk_text, if_neg hd]
    have harith : ((text.drop size).length + size - 1) / size = (text.length - 1) / size := by
      rw [hlen]
      congr 1
      omega
    rw [harith]

lemma chunk_text_flatten (size : Nat) (hs : 0 < size) (text : List Char) :
    (chunk_text text size).flatten = text := by
  by_cases ht : text = []
  · subst ht; rw [chunk_text]; simp
  · rw [chunk_text_cons_step text size hs ht, List.flatten_cons,
      chunk_text_flatten size hs (text.drop size), List.take_append_drop]
termination_by text.length
decreasing_by
  have hn : 0 < text.length := List.length_pos.mpr ht
  rw [List.length_drop]; omega

lemma chunk_text_length (size : Nat) (hs : 0 < size) (text : List Char) :
    (chunk_text text size).length = (text.length + size - 1) / size := by
  by_cases ht : text = []
  · subst ht
    have h0 : (([] : List Char).length + size - 1) / size = 0 := by
      apply Nat.div_eq_of_lt
      show 0 + size - 1 < size
      omega
    rw [h0, chunk_text, if_pos rfl]
    rfl
  · have hn : 0 < text.length := List.length_pos.mpr ht
    rw [chunk_text_cons_step text size hs ht, List.length_cons,
      chunk_text_length size hs (text.drop size), List.length_drop]
    have hcount : (text.length + size - 1) / size = (text.length - 1) / size + 1 := by
      have h1 : text.length + size - 1 = (text.length - 1) + size := by omega
      rw [h1, Nat.add_div_right _ hs]
    rw [hcount]
    by_cases hle : text.length ≤ size
    · have h0 : text.length - size = 0 := by omega
      rw [h0]
      have : (0 + size - 1) / size = 0 := Nat.div_eq_of_lt (by omega)
      rw [this]
      have : (text.length - 1) / size = 0 := Nat.div_eq_of_lt (by omega)
      omega
    · congr 1
      congr 1
      omega
termination_by text.length
decreasing_by
  have hn : 0 < text.length := List.length_pos.mpr ht
  rw [List.length_drop]; omega

lemma chunk_text_sum_lengths (size : Nat) (hs : 0 < size) (text : List Char) :
    ((chunk_text text size).map List.length).sum = text.length := by
  rw [← List.length_flatten, chunk_text_flatten size hs text]

/-- C1: for every text and every positive chunk size, `chunk_text` partitions
the text — concatenating the chunks in index order reproduces the text, the
chunk lengths sum to the text length, and the number of chunks is
`ceil(len(text)/size)` (which for `0 < size` equals
`(len(text) + size - 1) / size` in natural division) for non-empty text and
`0` for empty text. -/
theorem chunk_text_partition (text : List Char) (size : Nat) (hs : 0 < size) :
    (chunk_text text size).flatten = text ∧
    ((chunk_text text size).map List.length).sum = text.length ∧
    (text ≠ [] → (chunk_text text size).length = (text.length + size - 1) / size) ∧
    (text = [] → (chunk_text text size).length = 0) :=
  ⟨chunk_text_flatten size hs text, chunk_text_sum_lengths size hs text,
    fun _ => chunk_text_length size hs text,
    fun h => by rw [h, chunk_text]; simp⟩

/-- Witness for C1 at `text = "abcdefghijk"`, `size = 4` (three chunks of
sizes 4, 4, 3). -/
theorem chunk_text_partition_witness :
    (chunk_text "abcdefghijk".data 4).flatten = "abcdefghijk".data ∧
    ((chunk_text "abcdefghijk".data 4).map List.length).sum
      = "abcdefghijk".data.length ∧
    ("abcdefghijk".data ≠ [] →
      (chunk_text "abcdefghijk".data 4).length
        = ("abcdefghijk".data.length + 4 - 1) / 4) ∧
    ("abcdefghijk".data = [] → (chunk_text "abcdefghijk".data 4).length = 0) :=
  chunk_text_partition "abcdefghijk".data 4 (by decide)

/-! Part: File discovery: `find_code_files_bfs` -/

/-- Global constant `CODE_EXTENSIONS` from the script. -/
def CODE_EXTENSIONS : List String :=
  [".py", ".js", ".jsx", ".ts", ".tsx", ".java", ".go", ".c", ".cpp", ".hpp",
   ".cs", ".rb", ".php", ".html", ".css", ".scss", ".yaml",
   ".yml", ".sh", ".rs", ".prisma"]

/-- Global constant `EXCLUDE_DIRS` from the script. -/
def EXCLUDE_DIRS : List String :=
  ["node_modules", "venv", ".venv", "env", ".env",
   "build", "dist", "__pycache__", ".git"]

/-- Embedding of `os.path.splitext(name)[1]` for a bare entry name (it
contains no directory separator): the suffix starting at the last dot,
except that a name whose characters before that last dot are all dots
(such as `.env` or `..py`) has no extension. -/
def splitext_ext (name : String) : String :=
  let cs := name.data
  if '.' ∈ cs then
    let revTail := cs.reverse.takeWhile (fun c => c != '.')
    let pre := cs.take (cs.length - revTail.length - 1)
    if pre.all (fun c => c == '.') then "" else ⟨'.' :: revTail.reverse⟩
  else ""

/-- Python `str.lower()`, character by character. -/
def str_lower (s : String) : String :=
  ⟨s.data.map Char.toLower⟩

/-- Embedding of `os.path.splitext(entry.name)[1].lower()` as computed in
the discovery loop. -/
def extOf (name : String) : String :=
  str_lower (splitext_ext name)

/-- A directory tree as seen by `os.scandir`: each entry is a file with a
size, or a subdirectory with its own entries, listed in scan order.  A
directory the script cannot open (`PermissionError`, skipped silently) is
observationally a directory with no entries. -/
inductive Entry where
  | file (name : String) (size : Nat)
  | dir (name : String) (entries : List Entry)

mutual

/-- Structural size of one entry; termination measure for the BFS. -/
def entrySize : Entry → Nat
  | .file _ _ => 1
  | .dir _ es => 1 + entriesSize es

/-- Structural size of an entry list. -/
def entriesSize : List Entry → Nat
  | [] => 0
  | e :: es => entrySize e + entriesSize es

end

/-- Termination measure of the BFS work queue. -/
def queueMeasure (q : List (List String × List Entry)) : Nat :=
  (q.map (fun pe => 1 + entriesSize pe.2)).sum

/-- The subdirectories a dequeued directory appends to the queue: every
`entry.is_dir()` whose `entry.name not in EXCLUDE_DIRS`, paired with its
path `entry.path` (the parent path extended by the entry name). -/
def subdirsOf (excl : List String) (p : List String) (es : List Entry) :
    List (List String × List Entry) :=
  es.filterMap fun e =>
    match e with
    | .dir n sub => if n ∈ excl then none else some (p ++ [n], sub)
    | .file _ _ => none

/-- The files a dequeued directory appends to the result: every non-directory
entry whose lowercased extension is in the allow-list, paired with its size
(`os.path.getsize` is modelled by the size recorded in the tree). -/
def filesOf (exts : List String) (p : List String) (es : List Entry) :
    List (List String × Nat) :=
  es.filterMap fun e =>
    match e with
    | .file n sz => if extOf n ∈ exts then some (p ++ [n], sz) else none
    | .dir _ _ => none

lemma queueMeasure_append (a b : List (List String × List Entry)) :
    queueMeasure (a ++ b) = queueMeasure a + queueMeasure b := by
  unfold queueMeasure
  rw [List.map_append, List.sum_append]

lemma subdirsOf_cons_file (excl : List String) (p : List String)
    (n : String) (sz : Nat) (es : List Entry) :
    subdirsOf excl p (.file n sz :: es) = subdirsOf excl p es := by
  rw [subdirsOf, subdirsOf, List.filterMap_cons]

lemma subdirsOf_cons_dir (excl : List String) (p : List String)
    (n : String) (sub : List Entry) (es : List Entry) :
    subdirsOf excl p (.dir n sub :: es)
      = if n ∈ excl then subdirsOf excl p es
        else (p ++ [n], sub) :: subdirsOf excl p es := by
  rw [subdirsOf, subdirsOf, List.filterMap_cons]
  by_cases hn : n ∈ excl <;> simp [hn]

lemma entriesSize_cons (e : Entry) (es : List Entry) :
    entriesSize (e :: es) = entrySize e + entriesSize es := rfl

lemma queueMeasure_cons (pe : List String × List Entry)
    (q : List (List String × List Entry)) :
    queueMeasure (pe :: q) = 1 + entriesSize pe.2 + queueMeasure q := by
  unfold queueMeasure
  rw [List.map_cons, List.sum_cons]

lemma queueMeasure_cons' (p : List String) (es : List Entry)
    (q : List (List String × List Entry)) :
    queueMeasure ((p, es) :: q) = 1 + entriesSize es + queueMeasure q :=
  queueMeasure_cons (p, es) q

lemma queueMeasure_subdirsOf (excl : List String) (p : List String) :
    ∀ es : List Entry, queueMeasure (subdirsOf excl p es) ≤ entriesSize es := by
  intro es
  induction es with
  | nil => simp [subdirsOf, queueMeasure]
  | cons e es ih =>
    cases e with
    | file n sz =>
      rw [subdirsOf_cons_file, entriesSize_cons]
      have h1 : entrySize (Entry.file n sz) = 1 := rfl
      omega
    | dir n sub =>
      rw [subdirsOf_cons_dir, entriesSize_cons]
      have h1 : entrySize (Entry.dir n sub) = 1 + entriesSize sub := rfl
      by_cases hn : n ∈ excl
      · rw [if_pos hn]; omega
      · rw [if_neg hn, queueMeasure_cons']
        omega

/-- The `while queue:` loop of `find_code_files_bfs`: dequeue one directory
(`deque.popleft`), scan it once, enqueue its non-excluded subdirectories at
the tail (`queue.append`, FIFO) and append its allowed files to the result.
The Python loop body interleaves the two appends entry by entry, but a
directory entry only ever lands in the queue and a file entry only in the
result list, so the relative order inside each list is the scan order. -/
def bfsLoop (excl exts : List String) :
    List (List String × List Entry) → List (List String × Nat) →
      List (List String × Nat)
  | [], files => files
  | (p, es) :: rest, files =>
      bfsLoop excl exts (rest ++ subdirsOf excl p es) (files ++ filesOf exts p es)
termination_by q _ => queueMeasure q
decreasing_by
  rw [queueMeasure_append]
  rw [show queueMeasure ((p, es) :: rest)
    = 1 + entriesSize es + queueMeasure rest from by
      unfold queueMeasure; rw [List.map_cons, List.sum_cons]]
  have := queueMeasure_subdirsOf excl p es
  omega

/-- Embedding of `find_code_files_bfs(root)`: a BFS from the root directory,
followed by `files.sort(key=os.path.getsize)` — Python's stable sort,
ascending by size, modelled by the stable `List.mergeSort`.  The script reads
the globals `EXCLUDE_DIRS` and `CODE_EXTENSIONS`; they are lifted to the
parameters `excl` and `exts` here (the spec's `discover(root, exclude_dirs,
allowed_extensions)` contract).  The root is given as its path segments plus
its scanned entries; paths of discovered files are segment lists. -/
def find_code_files_bfs (excl exts : List String)
    (rootPath : List String) (rootEntries : List Entry) :
    List (List String × Nat) :=
  (bfsLoop excl exts [(rootPath, rootEntries)] []).mergeSort
    (fun a b => decide (a.2 ≤ b.2))

lemma bfsLoop_path_shape (excl exts : List String) (rootPath : List String)
    (queue : List (List String × List Entry)) (files : List (List String × Nat))
    (hq : ∀ q ∈ queue, ∃ ds, q.1 = rootPath ++ ds ∧ ∀ d ∈ ds, d ∉ excl)
    (hf : ∀ pr ∈ files,
      ∃ ds fn, pr.1 = rootPath ++ ds ++ [fn] ∧ ∀ d ∈ ds, d ∉ excl) :
    ∀ pr ∈ bfsLoop excl exts queue files,
      ∃ ds fn, pr.1 = rootPath ++ ds ++ [fn] ∧ ∀ d ∈ ds, d ∉ excl :=
  match queue with
  | [] => by rw [bfsLoop]; exact hf
  | (p, es) :: rest => by
      rw [bfsLoop]
      obtain ⟨ds, hds, hfree⟩ := hq (p, es) (List.mem_cons_self _ _)
      have hds' : p = rootPath ++ ds := hds
      apply bfsLoop_path_shape excl exts rootPath (rest ++ subdirsOf excl p es)
        (files ++ filesOf exts p es)
      · intro q hmem
        rcases List.mem_append.mp hmem with h | h
        · exact hq q (List.mem_cons_of_mem _ h)
        · rw [subdirsOf] at h
          obtain ⟨e, he, hfe⟩ := List.mem_filterMap.mp h
          cases e with
          | file n sz => exact absurd hfe (by simp)
          | dir n sub =>
            have hfe' : (if n ∈ excl
                then (none : Option (List String × List Entry))
                else some (p ++ [n], sub)) = some q := hfe
            by_cases hn : n ∈ excl
            · rw [if_pos hn] at hfe'
              exact absurd hfe' (by simp)
            · rw [if_neg hn] at hfe'
              obtain rfl := Option.some.inj hfe'
              refine ⟨ds ++ [n], ?_, ?_⟩
              · show p ++ [n] = rootPath ++ (ds ++ [n])
                rw [hds', List.append_assoc]
              · intro d hd
                rcases List.mem_append.mp hd with hd | hd
                · exact hfree d hd
                · rw [List.mem_singleton.mp hd]
                  exact hn

      · intro pr hmem
        rcases List.mem_append.mp hmem with h | h
        · exact hf pr h
        · rw [filesOf] at h
          obtain ⟨e, he, hfe⟩ := List.mem_filterMap.mp h
          cases e with
          | dir n sub => exact absurd hfe (by simp)
          | file n sz =>
            have hfe' : (if extOf n ∈ exts then some (p ++ [n], sz)
                else (none : Option (List String × Nat))) = some pr := hfe
            by_cases hx : extOf n ∈ exts
            · rw [if_pos hx] at hfe'
              obtain rfl := Option.some.inj hfe'
              refine ⟨ds, n, ?_, hfree⟩
              show p ++ [n] = rootPath ++ ds ++ [n]
              rw [hds']
            · rw [if_neg hx] at hfe'
              exact absurd hfe' (by simp)
termination_by queueMeasure queue
decreasing_by
  rw [queueMeasure_append, queueMeasure_cons']
  have := queueMeasure_subdirsOf excl p es
  omega

/-- C2 (amended): every file path returned by discovery consists of the root
path, then directory segments none of which belongs to the exclusion set,
then the file's own name.  Hence no excluded name occurs as a directory
segment strictly below the root, and no file inside a subtree rooted at an
excluded-named directory is ever returned.  (The claim exactly as stated —
no returned path contains an excluded name as a segment at any depth — is
refuted by `find_code_files_bfs_exclusion_counterexample`: the root's own
path segments are never checked against the exclusion set.) -/
theorem find_code_files_bfs_exclusion (excl exts : List String)
    (rootPath : List String) (rootEntries : List Entry) :
    ∀ pr ∈ find_code_files_bfs excl exts rootPath rootEntries,
      ∃ ds fn, pr.1 = rootPath ++ ds ++ [fn] ∧ ∀ d ∈ ds, d ∉ excl := by
  intro pr hpr
  rw [find_code_files_bfs, List.mem_mergeSort] at hpr
  refine bfsLoop_path_shape excl exts rootPath [(rootPath, rootEntries)] []
    ?_ ?_ pr hpr
  · intro q hq
    rw [List.mem_singleton.mp hq]
    exact ⟨[], by simp, by simp⟩
  · intro pr hpr
    exact absurd hpr (List.not_mem_nil pr)

/-- Witness for C2 (amended) on a concrete tree: the file discovered at
`root/src/a.py` decomposes as root path ++ non-excluded directory segments
++ file name. -/
theorem find_code_files_bfs_exclusion_witness :
    ∃ ds fn, (["root", "src", "a.py"] : List String) = ["root"] ++ ds ++ [fn] ∧
      ∀ d ∈ ds, d ∉ ["node_modules"] :=
  find_code_files_bfs_exclusion ["node_modules"] [".py"] ["root"]
    [.dir "src" [.file "a.py" 3], .dir "node_modules" [.file "b.py" 1]]
    (["root", "src", "a.py"], 3) (by
      rw [find_code_files_bfs, List.mem_mergeSort, bfsLoop]
      show _ ∈ bfsLoop ["node_modules"] [".py"]
        [(["root", "src"], [Entry.file "a.py" 3])] []
      rw [bfsLoop]
      show _ ∈ bfsLoop ["node_modules"] [".py"] []
        [(["root", "src", "a.py"], 3)]
      rw [bfsLoop]
      simp)

/-- C2 counterexample: with exclusion set `{node_modules}`, a traversal whose
root directory is itself named `node_modules` returns a file path containing
the excluded name as a path segment — the discovery loop never checks the
root against `EXCLUDE_DIRS` (the root is seeded into the queue directly). -/
theorem find_code_files_bfs_exclusion_counterexample :
    ∃ pr ∈ find_code_files_bfs ["node_modules"] [".py"] ["node_modules"]
      [.file "a.py" 5], "node_modules" ∈ pr.1 := by
  refine ⟨(["node_modules", "a.py"], 5), ?_, by simp⟩
  rw [find_code_files_bfs, List.mem_mergeSort, bfsLoop]
  show _ ∈ bfsLoop ["node_modules"] [".py"] []
    [(["node_modules", "a.py"], 5)]
  rw [bfsLoop]
  simp

/-- C8: the list returned by `find_code_files_bfs` is sorted by
non-decreasing file size — the loop's traversal-ordered result is passed
through `files.sort(key=os.path.getsize)` before being returned. -/
theorem find_code_files_bfs_sorted (excl exts : List String)
    (rootPath : List String) (rootEntries : List Entry) :
    (find_code_files_bfs excl exts rootPath rootEntries).Pairwise
      (fun a b => a.2 ≤ b.2) := by
  rw [find_code_files_bfs]
  have htrans : ∀ a b c : List String × Nat,
      (decide (a.2 ≤ b.2)) = true → (decide (b.2 ≤ c.2)) = true →
      (decide (a.2 ≤ c.2)) = true := by
    intro a b c hab hbc
    simp only [decide_eq_true_eq] at *
    omega
  have htotal : ∀ a b : List String × Nat,
      ((decide (a.2 ≤ b.2)) || (decide (b.2 ≤ a.2))) = true := by
    intro a b
    simp only [Bool.or_eq_true, decide_eq_true_eq]
    omega
  exact (List.sorted_mergeSort htrans htotal
    (bfsLoop excl exts [(rootPath, rootEntries)] [])).imp
    (fun hab => by simpa using hab)

/-! Part: Summarization client: `ollama_generate` -/

/-- Python whitespace for `str.strip()` with no argument (the ASCII
whitespace characters). -/
def isPyWhitespace (c : Char) : Bool :=
  c == ' ' || c == '\t' || c == '\n' || c == '\r' || c == '\x0b' || c == '\x0c'

/-- Python `str.strip()`: remove leading and trailing whitespace. -/
def pyStrip (s : String) : String :=
  ⟨((s.data.dropWhile isPyWhitespace).reverse.dropWhile isPyWhitespace).reverse⟩

/-- One line of the streamed response body as consumed by
`resp.iter_lines()`: a falsy line (skipped by `if line:`), a JSON object
(modelled as string key/value pairs), or a line on which `json.loads`
raises. -/
inductive Line where
  | blank
  | json (obj : List (String × String))
  | malformed
deriving DecidableEq

/-- One streamed exchange with the backend: whether
`resp.raise_for_status()` raises, the lines delivered before the stream
ends, and whether iteration ends in a transport exception after those
lines instead of a normal end. -/
structure Response where
  httpError : Bool
  lines : List Line
  abnormalEnd : Bool

/-- Key access `data["response"]`: the value bound to the key, if
present. -/
def jsonGet (obj : List (String × String)) (k : String) : Option String :=
  (obj.find? (fun kv => kv.1 == k)).map (fun kv => kv.2)

/-- The `for line in resp.iter_lines():` loop of `ollama_generate`: skip
falsy lines, parse each remaining line (`.malformed` makes `json.loads`
raise, modelled as `none`), and append `data["response"]` to the
accumulator whenever the key is present. -/
def accumulate : List Line → String → Option String
  | [], acc => some acc
  | .blank :: rest, acc => accumulate rest acc
  | .json obj :: rest, acc =>
      match jsonGet obj "response" with
      | some v => accumulate rest (acc ++ v)
      | none => accumulate rest acc
  | .malformed :: _, _ => none

/-- Embedding of `ollama_generate(prompt, model)` run against one backend
response `r`, with `err` the text of the exception if one is raised.  Any
exception — an HTTP error status from `raise_for_status()`, a line that
fails to parse, or a transport failure mid-stream — lands in the
catch-all `except` clause, which returns the degraded marker
`f"[Error calling Ollama: {e}]"` and discards whatever was accumulated;
a normal end returns `output.strip()`. -/
def ollama_generate (err : String) (r : Response) : String :=
  if r.httpError then "[Error calling Ollama: " ++ err ++ "]"
  else
    match accumulate r.lines "" with
    | none => "[Error calling Ollama: " ++ err ++ "]"
    | some out =>
        if r.abnormalEnd then "[Error calling Ollama: " ++ err ++ "]"
        else pyStrip out

/-- The `response` fragments of the delivered lines, in arrival order. -/
def fragments (lines : List Line) : List String :=
  lines.filterMap fun l =>
    match l with
    | .json obj => jsonGet obj "response"
    | _ => none

lemma accumulate_of_wellFormed :
    ∀ (lines : List Line), Line.malformed ∉ lines → ∀ acc,
      accumulate lines acc
        = some ((fragments lines).foldl (fun a v => a ++ v) acc) := by
  intro lines
  induction lines with
  | nil => intro _ acc; rfl
  | cons l rest ih =>
    intro hmem acc
    have hrest : Line.malformed ∉ rest := fun h => hmem (List.mem_cons_of_mem _ h)
    cases l with
    | blank =>
      rw [accumulate, ih hrest acc]
      rfl
    | json obj =>
      cases hj : jsonGet obj "response" with
      | some v =>
        have hstep : accumulate (Line.json obj :: rest) acc
            = accumulate rest (acc ++ v) := by rw [accumulate, hj]
        rw [hstep, ih hrest (acc ++ v)]
        have hfr : fragments (Line.json obj :: rest) = v :: fragments rest := by
          rw [fragments, fragments, List.filterMap_cons]
          simp [hj]
        rw [hfr, List.foldl_cons]
      | none =>
        have hstep : accumulate (Line.json obj :: rest) acc
            = accumulate rest acc := by rw [accumulate, hj]
        rw [hstep, ih hrest acc]
        have hfr : fragments (Line.json obj :: rest) = fragments rest := by
          rw [fragments, fragments, List.filterMap_cons]
          simp [hj]
        rw [hfr]
    | malformed => exact absurd (List.mem_cons_self _ _) hmem

lemma accumulate_of_malformed :
    ∀ (lines : List Line), Line.malformed ∈ lines → ∀ acc,
      accumulate lines acc = none := by
  intro lines
  induction lines with
  | nil => intro h; exact absurd h (List.not_mem_nil _)
  | cons l rest ih =>
    intro hmem acc
    cases l with
    | blank =>
      rw [accumulate]
      exact ih (by simpa using hmem) acc
    | json obj =>
      rw [accumulate]
      have hrest : Line.malformed ∈ rest := by simpa using hmem
      cases hj : jsonGet obj "response" with
      | some v => exact ih hrest (acc ++ v)
      | none => exact ih hrest acc
    | malformed => rfl

/-- C4 (amended): when the stream completes normally with every line
parsing, `ollama_generate` returns the fragments concatenated in arrival
order (then whitespace-stripped); but on any abnormal end — HTTP error,
malformed line, or transport failure mid-stream — the accumulated text is
discarded and the degraded error marker is returned, regardless of whether
anything was accumulated.  (The claim as stated — a partial abnormal
stream still returns the accumulated text, degraded only if nothing was
accumulated — is refuted by `ollama_generate_partial_counterexample`.) -/
theorem ollama_generate_stream (err : String) (r : Response) :
    (r.httpError = false → r.abnormalEnd = false → Line.malformed ∉ r.lines →
      ollama_generate err r
        = pyStrip ((fragments r.lines).foldl (fun a v => a ++ v) "")) ∧
    (r.httpError = true ∨ r.abnormalEnd = true ∨ Line.malformed ∈ r.lines →
      ollama_generate err r = "[Error calling Ollama: " ++ err ++ "]") := by
  constructor
  · intro h1 h2 h3
    have hstep : ollama_generate err r
        = if r.abnormalEnd = true then "[Error calling Ollama: " ++ err ++ "]"
          else pyStrip ((fragments r.lines).foldl (fun a v => a ++ v) "") := by
      rw [ollama_generate, if_neg (by rw [h1]; exact Bool.false_ne_true),
        accumulate_of_wellFormed r.lines h3 ""]
    rw [hstep, if_neg (by rw [h2]; exact Bool.false_ne_true)]
  · intro h
    rcases h with h | h | h
    · rw [ollama_generate, if_pos h]
    · rw [ollama_generate]
      by_cases hh : r.httpError = true
      · rw [if_pos hh]
      · rw [if_neg hh]
        cases hacc : accumulate r.lines "" with
        | none => rfl
        | some out =>
          show (if r.abnormalEnd = true then "[Error calling Ollama: " ++ err ++ "]"
            else pyStrip out) = "[Error calling Ollama: " ++ err ++ "]"
          rw [if_pos h]
    · rw [ollama_generate]
      by_cases hh : r.httpError = true
      · rw [if_pos hh]
      · rw [if_neg hh, accumulate_of_malformed r.lines h ""]

/-- Witness for C4 (amended) on a concrete normal stream with fragments
`"ab"` and `"cd"` (and one skipped falsy line). -/
theorem ollama_generate_stream_witness :
    ollama_generate "boom"
      ⟨false, [Line.json [("response", "ab")], Line.blank,
        Line.json [("response", "cd")]], false⟩
      = pyStrip ((fragments [Line.json [("response", "ab")], Line.blank,
          Line.json [("response", "cd")]]).foldl (fun a v => a ++ v) "") :=
  (ollama_generate_stream "boom" _).1 rfl rfl (by decide)

/-- C4 counterexample: a stream that delivers the fragment `"abc"` and then
ends abnormally returns the degraded error marker, not the accumulated
`"abc"` — the catch-all `except` clause discards `output`. -/
theorem ollama_generate_partial_counterexample :
    ollama_generate "boom" ⟨false, [Line.json [("response", "abc")]], true⟩
        = "[Error calling Ollama: boom]" ∧
      "[Error calling Ollama: boom]" ≠ "abc" :=
  ⟨rfl, by decide⟩

/-! Part: Two-phase aggregation: `ollama_summarize_text_blocks` -/

/-- The per-chunk prompt of `ollama_summarize_text_blocks` (the f-string
with the file path and the chunk text interpolated). -/
def chunk_prompt (file_path : String) (chunk : List Char) : String :=
  "You are an expert software engineer and technical writer.\n"
    ++ "Analyze the following code excerpt from the file '" ++ file_path
    ++ "' and produce a clear, developer-friendly summary.\n\n"
    ++ "For each excerpt, provide the following:\n"
    ++ "1) One-sentence purpose.\n"
    ++ "2) Key components.\n"
    ++ "3) Functionality description.\n"
    ++ "4) Dependencies.\n"
    ++ "5) Edge cases or considerations.\n\n"
    ++ "Code excerpt:\n" ++ ⟨chunk⟩ ++ "\n\n"

/-- Python `sep.join(strings)`. -/
def joinSep (sep : String) : List String → String
  | [] => ""
  | [s] => s
  | s :: rest => s ++ sep ++ joinSep sep rest

/-- The combine-phase prompt of `ollama_summarize_text_blocks`, embedding
the chunk summaries joined by the explicit separator `"\n\n---\n\n"`. -/
def combined_prompt (file_path : String) (chunk_summaries : List String) :
    String :=
  "Combine these chunk-level summaries for file " ++ file_path ++ ":\n"
    ++ "1) File summary\n2) Key components\n3) Actionable notes\n\n"
    ++ "Chunk summaries:\n\n" ++ joinSep "\n\n---\n\n" chunk_summaries

/-- Embedding of `ollama_summarize_text_blocks(blocks, file_path, model)`.
The backend is abstracted as `gen : String → String` — the behaviour of
`ollama_generate(prompt, model)` for the fixed model of the run; it never
raises (see `ollama_generate`, whose catch-all returns a marker string).
Besides the returned file summary, the embedding returns the list of
prompts passed to `ollama_generate`, in call order, as the observable trace
of backend calls (the per-chunk prompts in chunk order, then the combine
prompt); the `time.sleep(0.2)` pacing delay has no effect on the data and
is not modelled. -/
def ollama_summarize_text_blocks (gen : String → String)
    (blocks : List (List Char)) (file_path : String) : String × List String :=
  let chunk_summaries := blocks.map (fun chunk => gen (chunk_prompt file_path chunk))
  let cp := combined_prompt file_path chunk_summaries
  (gen cp, blocks.map (fun chunk => chunk_prompt file_path chunk) ++ [cp])

/-! Part: Pipeline driver: the summary loop of `main` -/

/-- The sentinel recorded by `main` for empty or unreadable files. -/
def EMPTY_SENTINEL : String := "[empty or binary file]"

/-- Embedding of `read_file(path)`: the decoded text when `open`/`read`
succeeds, `""` when any exception is raised (unreadable or undecodable
file, modelled as `none`). -/
def read_file (raw : Option String) : String := raw.getD ""

/-- Python dict assignment `file_summaries[rel] = summ` on an
insertion-ordered dict modelled as an association list: an existing key is
updated in place, a new key is appended at the end. -/
def dict_insert (m : List (String × String)) (k v : String) :
    List (String × String) :=
  if m.any (fun kv => kv.1 == k) then
    m.map (fun kv => if kv.1 == k then (k, v) else kv)
  else m ++ [(k, v)]

/-- The per-file body of the `for i, fpath in enumerate(code_files):` loop
of `main`: read the file; if the content is empty after `strip()`, record
the sentinel and `continue` (no backend call); otherwise chunk the content
at `CHUNK_CHAR_SIZE` and run the two-phase aggregator.  Returns the summary
recorded for the file together with the prompts sent to the backend for
it. -/
def process_file (gen : String → String) (rel : String) (raw : Option String) :
    String × List String :=
  let content := read_file raw
  if pyStrip content = "" then (EMPTY_SENTINEL, [])
  else ollama_summarize_text_blocks gen (chunk_text content.data CHUNK_CHAR_SIZE) rel

/-- The summary-collection loop of `main`: the discovered files are given
as (path relative to the root, readable content) in discovered-list order;
`m` accumulates `file_summaries` and `calls` the trace of backend prompts.
`os.path.relpath(fpath, repo_root)` is modelled by supplying each file's
relative path directly. -/
def main_loop (gen : String → String) :
    List (String × Option String) → List (String × String) → List String →
      List (String × String) × List String
  | [], m, calls => (m, calls)
  | (rel, raw) :: rest, m, calls =>
      main_loop gen rest (dict_insert m rel (process_file gen rel raw).1)
        (calls ++ (process_file gen rel raw).2)

lemma pyStrip_of_all_whitespace (s : String)
    (h : ∀ c ∈ s.data, isPyWhitespace c = true) : pyStrip s = "" := by
  rw [pyStrip]
  have h1 : s.data.dropWhile isPyWhitespace = [] :=
    List.dropWhile_eq_nil_iff.mpr h
  rw [h1]
  rfl

lemma string_eq_empty_of_data_eq_nil (s : String) (h : s.data = []) :
    s = "" := by
  cases s
  simp only [String.data] at h
  rw [h]

lemma chunk_text_ne_nil (text : List Char) (size : Nat) (hs : 0 < size)
    (ht : text ≠ []) : chunk_text text size ≠ [] := by
  intro hc
  have hlen := chunk_text_length size hs text
  rw [hc, List.length_nil] at hlen
  have hn : 0 < text.length := List.length_pos.mpr ht
  have hone : 1 ≤ (text.length + size - 1) / size :=
    (Nat.one_le_div_iff hs).mpr (by omega)
  omega

/-- C3 counterexample: calling the aggregator with an empty chunk list
still makes exactly one summarization call — the trace has length 1, not
0 — and returns the client's response to the combine prompt, which is not
a sentinel "empty" file summary. -/
theorem summarize_empty_blocks_counterexample :
    (ollama_summarize_text_blocks (fun _ => "RESP") [] "f.py").2.length = 1 ∧
    (ollama_summarize_text_blocks (fun _ => "RESP") [] "f.py").1 = "RESP" ∧
    "RESP" ≠ EMPTY_SENTINEL :=
  ⟨rfl, rfl, by decide⟩

/-- C3 (amended): the aggregator itself has no empty-input guard — called
with an empty chunk list it still makes exactly one backend call, the
combine call, and returns that call's result.  The empty case is instead
handled by the driver: a file whose content strips to empty is recorded
with the sentinel and triggers no backend call at all, and for content
that does not strip to empty the chunk list passed to the aggregator is
never empty.  (The claim as stated is refuted by
`summarize_empty_blocks_counterexample`.) -/
theorem aggregator_empty_blocks (gen : String → String) (fp rel : String)
    (raw : Option String) :
    (ollama_summarize_text_blocks gen [] fp
      = (gen (combined_prompt fp []), [combined_prompt fp []])) ∧
    (pyStrip (read_file raw) = "" →
      process_file gen rel raw = (EMPTY_SENTINEL, [])) ∧
    (pyStrip (read_file raw) ≠ "" →
      chunk_text (read_file raw).data CHUNK_CHAR_SIZE ≠ []) := by
  refine ⟨rfl, ?_, ?_⟩
  · intro h
    show (if pyStrip (read_file raw) = "" then (EMPTY_SENTINEL, ([] : List String))
        else ollama_summarize_text_blocks gen
          (chunk_text (read_file raw).data CHUNK_CHAR_SIZE) rel)
      = (EMPTY_SENTINEL, [])
    rw [if_pos h]
  · intro h
    apply chunk_text_ne_nil
    · rw [CHUNK_CHAR_SIZE]; omega
    · intro hd
      apply h
      rw [string_eq_empty_of_data_eq_nil (read_file raw) hd]
      rfl

/-- Witness for C3 (amended): with the identity client, the aggregator on
an empty chunk list returns the combine prompt's response and a one-call
trace; the driver records the sentinel with no calls for whitespace-only
content; and content `"x"` yields a non-empty chunk list. -/
theorem aggregator_empty_blocks_witness :
    (ollama_summarize_text_blocks (fun p => p) [] "f.py"
      = (combined_prompt "f.py" [], [combined_prompt "f.py" []])) ∧
    process_file (fun p => p) "f.py" (some " \n") = (EMPTY_SENTINEL, []) ∧
    chunk_text (read_file (some "x")).data CHUNK_CHAR_SIZE ≠ [] :=
  ⟨(aggregator_empty_blocks (fun p => p) "f.py" "f.py" (some " \n")).1,
   (aggregator_empty_blocks (fun p => p) "f.py" "f.py" (some " \n")).2.1 (by decide),
   (aggregator_empty_blocks (fun p => p) "f.py" "f.py" (some "x")).2.2 (by decide)⟩

/-- C6: a discovered file whose content is empty (zero bytes) or cannot be
read or decoded as text is recorded with the fixed sentinel marker and
never triggers a backend call: the per-file step returns the sentinel with
an empty call trace, and the driver loop records exactly that entry while
leaving the call trace unchanged. -/
theorem empty_or_unreadable_sentinel (gen : String → String) (rel : String)
    (raw : Option String) (h : raw = none ∨ raw = some "") :
    process_file gen rel raw = (EMPTY_SENTINEL, []) ∧
    ∀ (rest : List (String × Option String)) (m : List (String × String))
      (calls : List String),
      main_loop gen ((rel, raw) :: rest) m calls
        = main_loop gen rest (dict_insert m rel EMPTY_SENTINEL) calls := by
  have hp : process_file gen rel raw = (EMPTY_SENTINEL, []) := by
    rcases h with rfl | rfl <;> rfl
  refine ⟨hp, ?_⟩
  intro rest m calls
  rw [main_loop, hp]
  congr 1
  exact List.append_nil calls

/-- Witness for C6 at a zero-byte file. -/
theorem empty_or_unreadable_sentinel_witness :
    process_file (fun p => p) "a.py" (some "") = (EMPTY_SENTINEL, []) ∧
    main_loop (fun p => p) [("a.py", some "")] [] []
      = main_loop (fun p => p) [] (dict_insert [] "a.py" EMPTY_SENTINEL) [] :=
  ⟨(empty_or_unreadable_sentinel (fun p => p) "a.py" (some "") (Or.inr rfl)).1,
   (empty_or_unreadable_sentinel (fun p => p) "a.py" (some "") (Or.inr rfl)).2
     [] [] []⟩

lemma dict_insert_new_key (m : List (String × String)) (k v : String)
    (h : ∀ kv ∈ m, kv.1 ≠ k) : dict_insert m k v = m ++ [(k, v)] := by
  have hc : ¬ (m.any (fun kv => kv.1 == k) = true) := by
    simp only [List.any_eq_true, beq_iff_eq]
    rintro ⟨kv, hm, hk⟩
    exact h kv hm hk
  rw [dict_insert, if_neg hc]

lemma main_loop_keys (gen : String → String) :
    ∀ (files : List (String × Option String)) (m : List (String × String))
      (calls : List String),
      (files.map Prod.fst).Nodup →
      (∀ kv ∈ m, ∀ f ∈ files, kv.1 ≠ f.1) →
      (main_loop gen files m calls).1.map Prod.fst
        = m.map Prod.fst ++ files.map Prod.fst := by
  intro files
  induction files with
  | nil =>
    intro m calls _ _
    rw [main_loop]
    simp
  | cons f rest ih =>
    intro m calls hnd hdisj
    obtain ⟨rel, raw⟩ := f
    rw [main_loop]
    have hnew : ∀ kv ∈ m, kv.1 ≠ rel := fun kv hm =>
      hdisj kv hm (rel, raw) (List.mem_cons_self _ _)
    rw [dict_insert_new_key m rel _ hnew]
    have hnd' : (rest.map Prod.fst).Nodup := by
      rw [List.map_cons] at hnd
      exact (List.nodup_cons.mp hnd).2
    have hrelnot : rel ∉ rest.map Prod.fst := by
      rw [List.map_cons] at hnd
      exact (List.nodup_cons.mp hnd).1
    have hdisj' : ∀ kv ∈ m ++ [(rel, (process_file gen rel raw).1)],
        ∀ f ∈ rest, kv.1 ≠ f.1 := by
      intro kv hkv f hf
      rcases List.mem_append.mp hkv with hkm | hks
      · exact hdisj kv hkm f (List.mem_cons_of_mem _ hf)
      · rw [List.mem_singleton.mp hks]
        show rel ≠ f.1
        intro hEq
        apply hrelnot
        rw [hEq]
        exact List.mem_map_of_mem Prod.fst hf
    rw [ih (m ++ [(rel, (process_file gen rel raw).1)])
      (calls ++ (process_file gen rel raw).2) hnd' hdisj']
    simp

/-- C7: after a run of the summary loop, the summary map contains exactly
one entry per discovered file, keyed by the path relative to the root, and
its insertion order is exactly the order of the discovered file list (the
keys, in insertion order, are the files' relative paths in list order). -/
theorem main_loop_summary_map (gen : String → String)
    (files : List (String × Option String))
    (hnd : (files.map Prod.fst).Nodup) :
    (main_loop gen files [] []).1.map Prod.fst = files.map Prod.fst := by
  have h := main_loop_keys gen files [] [] hnd
    (fun kv hkv => absurd hkv (List.not_mem_nil kv))
  simpa using h

/-- Witness for C7 on a two-file run. -/
theorem main_loop_summary_map_witness :
    (main_loop (fun p => p) [("a.py", some "x"), ("b.py", none)] [] []).1.map
        Prod.fst
      = [("a.py", some "x"), ("b.py", none)].map Prod.fst :=
  main_loop_summary_map (fun p => p) [("a.py", some "x"), ("b.py", none)]
    (by decide)

/-- C5: when every summarization call returns a degraded result (the
error-marker string that `ollama_generate` produces on failure), the run
still completes — the summary map contains exactly one entry per
discovered file, in order, and for every file whose content does not strip
to empty the per-file call trace shows both phases completed: all chunk
prompts in chunk order followed by the combine prompt.  The loop has no
file-level or run-level abort (the embedding is a total function and every
file contributes its entry). -/
theorem degraded_run_completes (err : String → String)
    (files : List (String × Option String))
    (hnd : (files.map Prod.fst).Nodup) :
    ((main_loop (fun p => "[Error calling Ollama: " ++ err p ++ "]")
        files [] []).1.map Prod.fst = files.map Prod.fst) ∧
    (∀ f ∈ files, pyStrip (read_file f.2) ≠ "" →
      (process_file (fun p => "[Error calling Ollama: " ++ err p ++ "]")
          f.1 f.2).2
        = (chunk_text (read_file f.2).data CHUNK_CHAR_SIZE).map
            (chunk_prompt f.1)
          ++ [combined_prompt f.1
              ((chunk_text (read_file f.2).data CHUNK_CHAR_SIZE).map
                (fun c => "[Error calling Ollama: "
                  ++ err (chunk_prompt f.1 c) ++ "]"))]) := by
  constructor
  · have h := main_loop_keys (fun p => "[Error calling Ollama: " ++ err p ++ "]")
      files [] [] hnd (fun kv hkv => absurd hkv (List.not_mem_nil kv))
    simpa using h
  · intro f _ hne
    have hpf : process_file (fun p => "[Error calling Ollama: " ++ err p ++ "]")
        f.1 f.2
        = ollama_summarize_text_blocks
            (fun p => "[Error calling Ollama: " ++ err p ++ "]")
            (chunk_text (read_file f.2).data CHUNK_CHAR_SIZE) f.1 := by
      show (if pyStrip (read_file f.2) = "" then (EMPTY_SENTINEL, ([] : List String))
          else ollama_summarize_text_blocks
            (fun p => "[Error calling Ollama: " ++ err p ++ "]")
            (chunk_text (read_file f.2).data CHUNK_CHAR_SIZE) f.1)
        = ollama_summarize_text_blocks
            (fun p => "[Error calling Ollama: " ++ err p ++ "]")
            (chunk_text (read_file f.2).data CHUNK_CHAR_SIZE) f.1
      rw [if_neg hne]
    rw [hpf]
    rfl

/-- Witness for C5: one file with content `"x"` and a backend that always
fails with `"down"` — the map still maps `a.py` to an entry, and the trace
is the chunk prompt followed by the combine prompt over the degraded chunk
summary. -/
theorem degraded_run_completes_witness :
    ((main_loop (fun p => "[Error calling Ollama: "
        ++ (fun _ : String => "down") p ++ "]")
        [("a.py", some "x")] [] []).1.map Prod.fst = ["a.py"]) ∧
    (process_file (fun p => "[Error calling Ollama: "
        ++ (fun _ : String => "down") p ++ "]") "a.py" (some "x")).2
      = [chunk_prompt "a.py" ['x'],
         combined_prompt "a.py" ["[Error calling Ollama: down]"]] :=
  ⟨(degraded_run_completes (fun _ => "down") [("a.py", some "x")]
      (by decide)).1,
   (degraded_run_completes (fun _ => "down") [("a.py", some "x")]
      (by decide)).2 ("a.py", some "x") (by decide) (by decide)⟩

/-- C10: a discovered file whose content is non-empty but consists only of
whitespace characters is treated exactly like an empty file — the
emptiness test `if not content.strip():` strips whitespace before testing
— so the sentinel marker is recorded and no backend call is made. -/
theorem whitespace_only_sentinel (gen : String → String) (rel : String)
    (content : String) (hne : content ≠ "")
    (hws : ∀ c ∈ content.data, isPyWhitespace c = true) :
    process_file gen rel (some content) = (EMPTY_SENTINEL, []) := by
  have h : pyStrip (read_file (some content)) = "" :=
    pyStrip_of_all_whitespace content hws
  show (if pyStrip (read_file (some content)) = ""
      then (EMPTY_SENTINEL, ([] : List String))
      else ollama_summarize_text_blocks gen
        (chunk_text (read_file (some content)).data CHUNK_CHAR_SIZE) rel)
    = (EMPTY_SENTINEL, [])
  rw [if_pos h]

/-- Witness for C10 at the non-empty all-whitespace content `" \n\t"`. -/
theorem whitespace_only_sentinel_witness :
    process_file (fun p => p) "a.py" (some " \n\t") = (EMPTY_SENTINEL, []) :=
  whitespace_only_sentinel (fun p => p) "a.py" " \n\t" (by decide) (by decide)

/-! Part: Acquisition path selection: `get_unique_repo_path`

Decimal rendering of the counter (`f"{path.name}_{counter}"` uses
`Nat.repr` in this embedding) is injective; this is proved below through
the decimal value of the digit string and gives the pigeonhole bound that
makes the script's unbounded `while True:` loop terminate on a finite
filesystem. -/

/-- Numeric value of a decimal digit character. -/
def digitVal (c : Char) : Nat := c.toNat - 48

/-- Decimal value of a digit string. -/
def strVal (cs : List Char) : Nat :=
  cs.foldl (fun a c => 10 * a + digitVal c) 0

lemma digitVal_digitChar (d : Nat) (h : d < 10) :
    digitVal (Nat.digitChar d) = d := by
  interval_cases d <;> rfl

lemma toDigitsCore_succ (b fuel n : Nat) (ds : List Char) :
    Nat.toDigitsCore b (fuel + 1) n ds
      = if n / b = 0 then Nat.digitChar (n % b) :: ds
        else Nat.toDigitsCore b fuel (n / b) (Nat.digitChar (n % b) :: ds) :=
  rfl

lemma foldl_toDigitsCore :
    ∀ (fuel n : Nat), n < fuel → ∀ (ds : List Char) (acc : Nat),
      ∃ e, 0 < e ∧
        (Nat.toDigitsCore 10 fuel n ds).foldl
            (fun a c => 10 * a + digitVal c) acc
          = ds.foldl (fun a c => 10 * a + digitVal c) (acc * 10 ^ e + n) := by
  intro fuel
  induction fuel with
  | zero =>
    intro n h
    exact absurd h (Nat.not_lt_zero n)
  | succ fuel ih =>
    intro n h ds acc
    rw [toDigitsCore_succ]
    by_cases hdiv : n / 10 = 0
    · rw [if_pos hdiv]
      refine ⟨1, Nat.one_pos, ?_⟩
      rw [List.foldl_cons]
      have hmod : n % 10 = n := by omega
      rw [digitVal_digitChar (n % 10) (Nat.mod_lt n (by omega)), hmod]
      congr 1
      rw [pow_one]
      omega
    · rw [if_neg hdiv]
      have hlt : n / 10 < fuel := by
        have hself : n / 10 < n := Nat.div_lt_self (by omega) (by omega)
        omega
      obtain ⟨e, he, heq⟩ := ih (n / 10) hlt (Nat.digitChar (n % 10) :: ds) acc
      refine ⟨e + 1, by omega, ?_⟩
      rw [heq, List.foldl_cons,
        digitVal_digitChar (n % 10) (Nat.mod_lt n (by omega))]
      congr 1
      have hpow : acc * 10 ^ (e + 1) = 10 * (acc * 10 ^ e) := by ring
      rw [hpow]
      omega

lemma strVal_repr (n : Nat) : strVal (Nat.repr n).data = n := by
  have h : (Nat.repr n).data = Nat.toDigitsCore 10 (n + 1) n [] := rfl
  rw [strVal, h]
  obtain ⟨e, _, heq⟩ :=
    foldl_toDigitsCore (n + 1) n (Nat.lt_succ_self n) [] 0
  rw [heq, List.foldl_nil, Nat.zero_mul, Nat.zero_add]

lemma nat_repr_injective (m n : Nat) (h : Nat.repr m = Nat.repr n) :
    m = n := by
  rw [← strVal_repr m, ← strVal_repr n, h]

lemma string_data_injective (s t : String) (h : s.data = t.data) :
    s = t := by
  cases s
  cases t
  simp only [String.data] at h
  rw [h]

/-- The candidate `path.parent / f"{path.name}_{counter}"` rendered as a
path string. -/
def suffixed_path (parent name : String) (k : Nat) : String :=
  parent ++ "/" ++ name ++ "_" ++ Nat.repr k

lemma suffixed_path_inj (parent name : String) (i j : Nat)
    (h : suffixed_path parent name i = suffixed_path parent name j) :
    i = j := by
  apply nat_repr_injective
  apply string_data_injective
  have hd := congrArg String.data h
  rw [suffixed_path, suffixed_path] at hd
  simp only [String.data_append] at hd
  exact List.append_cancel_left hd

/-- The incrementing search of the `while True:` loop of
`get_unique_repo_path`: the first counter, counting up from `k`, whose
candidate path does not exist.  `fuel` bounds the recursion;
`existing.length + 1` steps always suffice (`exists_free_suffix`). -/
def find_free (existing : List String) (parent name : String) :
    Nat → Nat → Nat
  | 0, k => k
  | fuel + 1, k =>
      if suffixed_path parent name k ∈ existing
      then find_free existing parent name fuel (k + 1)
      else k

/-- Embedding of `get_unique_repo_path(base_path)`: the filesystem is the
finite list `existing` of paths that exist (`path.exists()`), and the
resolved base path is `parent ++ "/" ++ name` (`.resolve()` is modelled by
taking the path already resolved, split into `path.parent` and
`path.name`).  A non-existing base is returned as is; otherwise the search
starts at `counter = 1`. -/
def get_unique_repo_path (existing : List String) (parent name : String) :
    String :=
  if parent ++ "/" ++ name ∈ existing then
    suffixed_path parent name
      (find_free existing parent name (existing.length + 1) 1)
  else parent ++ "/" ++ name

lemma find_free_spec (existing : List String) (parent name : String) :
    ∀ (fuel k : Nat),
      (∃ j, k ≤ j ∧ j < k + fuel ∧ suffixed_path parent name j ∉ existing) →
      suffixed_path parent name (find_free existing parent name fuel k)
          ∉ existing ∧
        k ≤ find_free existing parent name fuel k ∧
        ∀ j, k ≤ j → j < find_free existing parent name fuel k →
          suffixed_path parent name j ∈ existing := by
  intro fuel
  induction fuel with
  | zero =>
    intro k hex
    obtain ⟨j, h1, h2, _⟩ := hex
    exfalso
    omega
  | succ fuel ih =>
    intro k hex
    rw [find_free]
    by_cases hk : suffixed_path parent name k ∈ existing
    · rw [if_pos hk]
      have hex' : ∃ j, k + 1 ≤ j ∧ j < (k + 1) + fuel ∧
          suffixed_path parent name j ∉ existing := by
        obtain ⟨j, h1, h2, h3⟩ := hex
        refine ⟨j, ?_, by omega, h3⟩
        rcases Nat.eq_or_lt_of_le h1 with rfl | hlt
        · exact absurd hk h3
        · omega
      obtain ⟨hfree, hge, hleast⟩ := ih (k + 1) hex'
      refine ⟨hfree, by omega, ?_⟩
      intro j hj1 hj2
      rcases Nat.eq_or_lt_of_le hj1 with rfl | hlt
      · exact hk
      · exact hleast j hlt hj2
    · rw [if_neg hk]
      exact ⟨hk, Nat.le_refl k, fun j h1 h2 => by exfalso; omega⟩

lemma exists_free_suffix (existing : List String) (parent name : String) :
    ∃ j, 1 ≤ j ∧ j < 1 + (existing.length + 1) ∧
      suffixed_path parent name j ∉ existing := by
  by_contra hall
  push_neg at hall
  have hsub : ((List.range (existing.length + 1)).map
      (fun i => suffixed_path parent name (i + 1))) ⊆ existing := by
    intro x hx
    obtain ⟨i, hi, rfl⟩ := List.mem_map.mp hx
    have hir := List.mem_range.mp hi
    exact hall (i + 1) (by omega) (by omega)
  have hnd : ((List.range (existing.length + 1)).map
      (fun i => suffixed_path parent name (i + 1))).Nodup := by
    refine List.Nodup.map ?_ (List.nodup_range _)
    intro a b hab
    have := suffixed_path_inj parent name (a + 1) (b + 1) hab
    omega
  have h1 : ((List.range (existing.length + 1)).map
        (fun i => suffixed_path parent name (i + 1))).toFinset.card
      = existing.length + 1 := by
    rw [List.toFinset_card_of_nodup hnd, List.length_map, List.length_range]
  have h2 : ((List.range (existing.length + 1)).map
        (fun i => suffixed_path parent name (i + 1))).toFinset
      ⊆ existing.toFinset := by
    intro a ha
    rw [List.mem_toFinset] at *
    exact hsub ha
  have h3 := Finset.card_le_card h2
  have h4 : existing.toFinset.card ≤ existing.length :=
    existing.toFinset_card_le
  omega

/-- C9: `get_unique_repo_path` returns the base path `P` itself when `P`
does not exist; when `P` exists it returns the sibling `P_k` with the
smallest counter `k ≥ 1` whose path does not exist — in particular the
returned path never coincides with an existing path, so the existing `P`
is never overwritten. -/
theorem get_unique_repo_path_spec (existing : List String)
    (parent name : String) :
    (parent ++ "/" ++ name ∉ existing →
      get_unique_repo_path existing parent name = parent ++ "/" ++ name) ∧
    (parent ++ "/" ++ name ∈ existing →
      get_unique_repo_path existing parent name ∉ existing ∧
      ∃ k, 1 ≤ k ∧
        get_unique_repo_path existing parent name
          = suffixed_path parent name k ∧
        suffixed_path parent name k ∉ existing ∧
        ∀ j, 1 ≤ j → j < k → suffixed_path parent name j ∈ existing) := by
  constructor
  · intro h
    rw [get_unique_repo_path, if_neg h]
  · intro h
    obtain ⟨hfree, hge, hleast⟩ := find_free_spec existing parent name
      (existing.length + 1) 1 (exists_free_suffix existing parent name)
    rw [get_unique_repo_path, if_pos h]
    exact ⟨hfree,
      find_free existing parent name (existing.length + 1) 1,
      hge, rfl, hfree, fun j h1 h2 => hleast j h1 h2⟩

/-- Witness for C9: with `/t/repo` and `/t/repo_1` existing, acquiring into
`/t/repo` selects a fresh path (concretely `/t/repo_2`), overwriting
nothing. -/
theorem get_unique_repo_path_witness :
    get_unique_repo_path ["/t/repo", "/t/repo_1"] "/t" "repo"
        ∉ ["/t/repo", "/t/repo_1"] ∧
      get_unique_repo_path ["/t/repo", "/t/repo_1"] "/t" "repo"
        = "/t/repo_2" :=
  ⟨((get_unique_repo_path_spec ["/t/repo", "/t/repo_1"] "/t" "repo").2
      (by decide)).1,
   by decide⟩

end DocGen
